import Mathlib

/-!
Verification of the character-classification system (system.py): feature
extraction, PCA dimensionality reduction and nearest-neighbour classification.

The embedding uses rational numbers for the numeric values.  Matrices are
lists of rows.  The external eigendecomposition routine (scipy.linalg.eigh)
and the square-root function (np.sqrt) are taken as explicit function
parameters, since their numeric results are produced by external libraries;
every other operation is translated directly from the source.
-/

namespace SystemPy

/-- Matrices: lists of rows of rationals, mirroring numpy 2-d float arrays. -/
abbrev Mat : Type := List (List ℚ)

/-- Row dot product: numpy's sum of the elementwise product of two vectors. -/
def dotL (xs ys : List ℚ) : ℚ := (List.zipWith (fun a b => a * b) xs ys).sum

/-- Transpose of a matrix; the width is read off the first row, as numpy
reads it off the shape. -/
def transposeMat (A : Mat) : Mat :=
  (List.range (A.headD []).length).map (fun j => A.map (fun r => r.getD j 0))

/-- Matrix product, np.dot on 2-d arrays. -/
def matMul (A B : Mat) : Mat :=
  A.map (fun ra => (transposeMat B).map (fun cb => dotL ra cb))

/-- Subtract a scalar from every entry (numpy broadcasting of a scalar). -/
def matSubScalar (A : Mat) (c : ℚ) : Mat := A.map (fun r => r.map (fun a => a - c))

/-- Add a scalar to every entry (numpy broadcasting of a scalar). -/
def matAddScalar (A : Mat) (c : ℚ) : Mat := A.map (fun r => r.map (fun a => a + c))

/-- Elementwise division of two matrices of equal shape. -/
def matDiv (A B : Mat) : Mat :=
  List.zipWith (fun ra rb => List.zipWith (fun a b => a / b) ra rb) A B

/-- Elementwise product of two matrices of equal shape. -/
def matHadamard (A B : Mat) : Mat :=
  List.zipWith (fun ra rb => List.zipWith (fun a b => a * b) ra rb) A B

/-- np.outer of two vectors. -/
def npOuter (xs ys : List ℚ) : Mat := xs.map (fun a => ys.map (fun b => a * b))

/-- Total number of entries of a matrix, numpy's array size. -/
def matSize (A : Mat) : ℕ := (A.map List.length).sum

/-- Sum of all entries. -/
def npSum (A : Mat) : ℚ := (A.map List.sum).sum

/-- np.mean over the whole array: one scalar, the flat sum over the flat size. -/
def npMean (A : Mat) : ℚ := npSum A / (matSize A : ℚ)

/-- np.fliplr: reverse the column order, i.e. reverse every row. -/
def fliplr (A : Mat) : Mat := A.map List.reverse

/-- np.cov with rowvar=0: rows are observations, columns are variables;
entry (i, j) is the centered dot product of columns i and j over (m - 1). -/
def npCov (X : Mat) : Mat :=
  let m : ℚ := (X.length : ℚ)
  let cols := transposeMat X
  cols.map (fun ci => cols.map (fun cj =>
    dotL (ci.map (fun a => a - ci.sum / m)) (cj.map (fun a => a - cj.sum / m)) / (m - 1)))

/-- The model dictionary built by the training stage. -/
structure Model where
  labels_train : List String
  bbox_size : ℕ × ℕ
  eigenvector : Mat
  noise_dim : ℕ
  dim : ℕ
  fvectors_train : Mat
deriving Repr, DecidableEq

/-- doPCA from system.py.  The scipy.linalg.eigh call is the parameter
`eigh covx lo hi`, returning the pair of eigenvalues and eigenvector columns
for the eigenvalue index range lo..hi.  The function mutates the model's
eigenvector field exactly where the Python code assigns the dictionary entry,
so it returns the produced matrix together with the updated model. -/
def doPCA (eigh : Mat → ℕ → ℕ → List ℚ × Mat) (feature_vector : Mat) (model : Model)
    (d : ℕ) : Mat × Model :=
  let noise_dim := model.noise_dim
  let dim := model.dim
  let v := model.eigenvector
  let fitted : Mat × Model :=
    if matSize v = 0 then
      let covx := npCov feature_vector
      let N := covx.length
      let wv := eigh covx (N - d) (N - 1)
      let v2 := fliplr wv.2
      if d = dim then (v2, { model with eigenvector := v2 }) else (v2, model)
    else (v, model)
  let v2 := fitted.1
  let model2 := fitted.2
  let pca_processed_data := matMul (matSubScalar feature_vector (npMean feature_vector)) v2
  if d = noise_dim then
    (matAddScalar (matMul pca_processed_data (transposeMat v2)) (npMean feature_vector), model2)
  else (pca_processed_data, model2)

/-- reduce_dimensions from system.py: a noise-reduction PCA pass followed by
the final-dimension PCA pass, threading the (possibly updated) model. -/
def reduce_dimensions (eigh : Mat → ℕ → ℕ → List ℚ × Mat) (feature_vectors_full : Mat)
    (model : Model) : Mat × Model :=
  let noise_dim := model.noise_dim
  let dim := model.dim
  let r1 := doPCA eigh feature_vectors_full model noise_dim
  let r2 := doPCA eigh r1.1 r1.2 dim
  r2

/-- The running-argmax loop behind np.argmax: index i is the position of the
next element, bi and bv the position and value of the current best; a later
element replaces the best only when strictly greater. -/
def argmaxAux : ℕ → ℕ → ℚ → List ℚ → ℕ
  | _, bi, _, [] => bi
  | i, bi, bv, a :: t =>
    if bv < a then argmaxAux (i + 1) i a t else argmaxAux (i + 1) bi bv t

/-- np.argmax on a vector: the index of the first occurrence of the maximum
(numpy documents first-occurrence tie-breaking); 0 on the empty vector. -/
def argmaxIdx : List ℚ → ℕ
  | [] => 0
  | a :: t => argmaxAux 1 0 a t

/-- nearest_neighbour from system.py.  np.sqrt is the parameter sqrt; the
similarity matrix is the dot-product matrix divided elementwise by the outer
product of the row norms, and each test row takes the label of the training
row selected by np.argmax over its similarity row. -/
def nearest_neighbour (sqrt : ℚ → ℚ) (fvectors_train : Mat) (labels_train : List String)
    (fvectors_test : Mat) : List String :=
  let x := matMul fvectors_test (transposeMat fvectors_train)
  let modtest := ((matHadamard fvectors_test fvectors_test).map List.sum).map sqrt
  let modtrain := ((matHadamard fvectors_train fvectors_train).map List.sum).map sqrt
  let dist := matDiv x (npOuter modtest modtrain)
  let nearest := dist.map argmaxIdx
  nearest.map (fun i => labels_train.getD i "")

/-- classify_page from system.py: nearest-neighbour classification of the
page rows against the model's stored training vectors and labels. -/
def classify_page (sqrt : ℚ → ℚ) (page : Mat) (model : Model) : List String :=
  nearest_neighbour sqrt model.fvectors_train model.labels_train page

/-- get_bounding_box_size from system.py: the maxima of the image heights and
widths; Python's max raises ValueError on an empty sequence, hence none. -/
def get_bounding_box_size (images : List Mat) : Option (ℕ × ℕ) :=
  match images with
  | [] => none
  | _ :: _ =>
    some ((images.map List.length).foldl max 0,
          (images.map (fun img => (img.headD []).length)).foldl max 0)

/-- The padded canvas built inside images_to_feature_vectors: an H-by-W grid
of 255 with the image copied into the top-left corner, both directions
clamped to the canvas. -/
def padImage (image : Mat) (H W : ℕ) : Mat :=
  let h := min image.length H
  let w := min (image.headD []).length W
  (List.range H).map (fun i => (List.range W).map (fun j =>
    if i < h ∧ j < w then (image.getD i []).getD j 0 else 255))

/-- The body of images_to_feature_vectors once a bounding box is fixed: one
flattened padded canvas per image, in input order. -/
def toFeatureVectorsFixed (images : List Mat) (bb : ℕ × ℕ) : Mat :=
  images.map (fun img => (padImage img bb.1 bb.2).flatten)

/-- images_to_feature_vectors from system.py: when no bounding box is given
it is computed from the images (failing on an empty list as that computation
does). -/
def images_to_feature_vectors (images : List Mat) (bbox_size : Option (ℕ × ℕ)) :
    Option Mat :=
  match bbox_size with
  | some bb => some (toFeatureVectorsFixed images bb)
  | none => (get_bounding_box_size images).map (fun bb => toFeatureVectorsFixed images bb)

/-- process_training_data from system.py, with the file loading stripped to
its result (the loaded images and labels are parameters): compute the
bounding box, vectorize, build the initial model with an empty eigenvector
basis and the constants 50 and 10, reduce, and store the reduced vectors. -/
def process_training_data (eigh : Mat → ℕ → ℕ → List ℚ × Mat) (images_train : List Mat)
    (labels_train : List String) : Option Model :=
  match get_bounding_box_size images_train with
  | none => none
  | some bbox_size =>
    let fvectors_train_full := toFeatureVectorsFixed images_train bbox_size
    let model0 : Model :=
      { labels_train := labels_train, bbox_size := bbox_size, eigenvector := [],
        noise_dim := 50, dim := 10, fvectors_train := [] }
    let r := reduce_dimensions eigh fvectors_train_full model0
    some { r.2 with fvectors_train := r.1 }

/-- load_test_page from system.py, with the image loading stripped to its
result: vectorize with the model's stored bounding box and reduce. -/
def load_test_page (eigh : Mat → ℕ → ℕ → List ℚ × Mat) (images_test : List Mat)
    (model : Model) : Mat × Model :=
  let bbox_size := model.bbox_size
  let fvectors_test := toFeatureVectorsFixed images_test bbox_size
  reduce_dimensions eigh fvectors_test model

/-- correct_errors from system.py: returns the labels unchanged; the model is
threaded to record that it is not modified. -/
def correct_errors (page : Mat) (labels : List String) (bboxes : Mat) (model : Model) :
    List String × Model :=
  (labels, model)

/-- Specification-side cosine similarity of two vectors, written as in the
spec: the dot product over the product of the two L2 norms. -/
def cosSim (sqrt : ℚ → ℚ) (x y : List ℚ) : ℚ :=
  dotL x y / (sqrt (dotL x x) * sqrt (dotL y y))

/-- The square-root parameter behaves like a square root on the value s. -/
def SqrtOK (sqrt : ℚ → ℚ) (s : ℚ) : Prop := 0 ≤ sqrt s ∧ sqrt s * sqrt s = s

/-- Specification-side first index of a maximal element: 0 when the head
bounds the tail, otherwise one past the answer for the tail. -/
def leastArgmax : List ℚ → ℕ
  | [] => 0
  | a :: t => if t.all (fun x => decide (x ≤ a)) then 0 else leastArgmax t + 1

/-- The basis doPCA computes in its fit branch: the reversed eigenvector
columns of the covariance of the batch, for the top d eigenvalue index
range (N - d) .. (N - 1). -/
def fittedBasis (eigh : Mat → ℕ → ℕ → List ℚ × Mat) (fv : Mat) (d : ℕ) : Mat :=
  fliplr (eigh (npCov fv) ((npCov fv).length - d) ((npCov fv).length - 1)).2

/-- Specification-side projection with basis v: center the batch with its
scalar mean and multiply by the basis. -/
def projWith (v A : Mat) : Mat := matMul (matSubScalar A (npMean A)) v

/-- Specification-side reconstruction with basis v: the projection times the
transposed basis, plus the same scalar mean. -/
def reconWith (v A : Mat) : Mat :=
  matAddScalar (matMul (projWith v A) (transposeMat v)) (npMean A)

/-- A concrete stand-in for the external eigendecomposition on 2-by-2
covariance matrices, used to evaluate the embedding on concrete data. -/
def exEigh (_covx : Mat) (lo _hi : ℕ) : List ℚ × Mat :=
  if lo = 0 then ([0, 0], [[1, 0], [0, 1]]) else ([0], [[1], [0]])

/-- A concrete square root, correct on the perfect squares appearing in the
concrete examples below. -/
def csqrt (q : ℚ) : ℚ :=
  if q = 1 then 1 else if q = 4 then 2 else if q = 9 then 3 else 0

/-- A concrete trained model with a frozen one-column basis. -/
def exModelT : Model :=
  { labels_train := ["A", "B"], bbox_size := (1, 2), eigenvector := [[1], [0]],
    noise_dim := 2, dim := 1, fvectors_train := [[1], [0]] }

/-- A concrete untrained model with an empty basis. -/
def exModel0 : Model :=
  { labels_train := ["A", "B", "C"], bbox_size := (1, 2), eigenvector := [],
    noise_dim := 2, dim := 1, fvectors_train := [] }

/-- A concrete batch of three 2-dimensional feature vectors. -/
def exFV : Mat := [[1, 2], [3, 5], [7, 11]]

/-- Specification-side mean of column i of X, rows taken as observations. -/
def colMeanSpec (X : Mat) (i : ℕ) : ℚ :=
  ((List.range X.length).map (fun k => (X.getD k []).getD i 0)).sum / (X.length : ℚ)

/-- Specification-side covariance matrix of X with rows as observations and
p feature columns, normalized by the number of observations minus one. -/
def specCov (X : Mat) (p : ℕ) : Mat :=
  (List.range p).map (fun i => (List.range p).map (fun j =>
    ((List.range X.length).map (fun k =>
      ((X.getD k []).getD i 0 - colMeanSpec X i) *
        ((X.getD k []).getD j 0 - colMeanSpec X j))).sum / ((X.length : ℚ) - 1)))

/-! ### General helper lemmas -/

theorem zipWith_self {α β : Type} (f : α → α → β) :
    ∀ l : List α, List.zipWith f l l = l.map (fun a => f a a) := by
  intro l
  induction l with
  | nil => rfl
  | cons a t ih => simp [List.zipWith, ih]

theorem map_eq_range_map {α β : Type} (l : List α) (dflt : α) (f : α → β) :
    l.map f = (List.range l.length).map (fun k => f (l.getD k dflt)) := by
  apply List.ext_getElem
  · simp
  · intro n h1 h2
    simp only [List.getElem_map, List.getElem_range]
    rw [List.getD_eq_getElem?_getD, List.getElem?_eq_getElem (by simpa using h1)]
    rfl

theorem rowRecover (l : List ℚ) (w : ℕ) (h : l.length = w) :
    (List.range w).map (fun j => l.getD j 0) = l := by
  subst h
  have h2 := map_eq_range_map l 0 (fun a => a)
  simpa using h2.symm

/-- If a stored basis is non-empty, doPCA takes the reuse branch: it returns
the projection (or, on the noise pass, the reconstruction) with the stored
basis and leaves the model untouched. -/
theorem doPCA_nonempty (eigh : Mat → ℕ → ℕ → List ℚ × Mat) (fv : Mat) (model : Model)
    (d : ℕ) (hv : matSize model.eigenvector ≠ 0) :
    doPCA eigh fv model d =
      (if d = model.noise_dim then reconWith model.eigenvector fv
       else projWith model.eigenvector fv, model) := by
  unfold doPCA reconWith projWith
  simp only [if_neg hv]
  split <;> rfl

/-- If a stored basis is non-empty, both passes of reduce_dimensions reuse
it: the result is the final-dimension projection of the noise-pass
reconstruction, both built from the stored basis, and the model is
untouched. -/
theorem reduce_dimensions_nonempty (eigh : Mat → ℕ → ℕ → List ℚ × Mat) (fv : Mat)
    (model : Model) (hv : matSize model.eigenvector ≠ 0) :
    reduce_dimensions eigh fv model =
      (if model.dim = model.noise_dim then
         reconWith model.eigenvector (reconWith model.eigenvector fv)
       else projWith model.eigenvector (reconWith model.eigenvector fv), model) := by
  unfold reduce_dimensions
  show doPCA eigh (doPCA eigh fv model model.noise_dim).1
    (doPCA eigh fv model model.noise_dim).2 model.dim = _
  rw [doPCA_nonempty eigh fv model model.noise_dim hv, if_pos rfl]
  show doPCA eigh (reconWith model.eigenvector fv) model model.dim = _
  rw [doPCA_nonempty eigh _ model model.dim hv]

/-! ### C1: a frozen basis is reused verbatim and never recomputed -/

/-- C1: whenever the stored eigenvector basis is non-empty, doPCA leaves the
model (in particular its eigenvector field) unchanged, its result does not
depend on the eigendecomposition routine at all (no covariance or
eigendecomposition contributes), and the same holds through
reduce_dimensions and load_test_page; refitting is a no-op read-reuse. -/
theorem c1_frozen_basis_noop (eigh eigh2 : Mat → ℕ → ℕ → List ℚ × Mat)
    (fv : Mat) (images : List Mat) (model : Model) (d : ℕ)
    (hv : matSize model.eigenvector ≠ 0) :
    (doPCA eigh fv model d).2 = model ∧
    (doPCA eigh fv model d).2.eigenvector = model.eigenvector ∧
    doPCA eigh fv model d = doPCA eigh2 fv model d ∧
    (reduce_dimensions eigh fv model).2 = model ∧
    reduce_dimensions eigh fv model = reduce_dimensions eigh2 fv model ∧
    (load_test_page eigh images model).2 = model := by
  have h1 : ∀ e fv' d', doPCA e fv' model d' =
      (if d' = model.noise_dim then reconWith model.eigenvector fv'
       else projWith model.eigenvector fv', model) :=
    fun e fv' d' => doPCA_nonempty e fv' model d' hv
  have h2 : ∀ e fv', reduce_dimensions e fv' model =
      (if model.dim = model.noise_dim then
         reconWith model.eigenvector (reconWith model.eigenvector fv')
       else projWith model.eigenvector (reconWith model.eigenvector fv'), model) :=
    fun e fv' => reduce_dimensions_nonempty e fv' model hv
  refine ⟨?_, ?_, ?_, ?_, ?_, ?_⟩
  · rw [h1]
  · rw [h1]
  · rw [h1, h1]
  · rw [h2]
  · rw [h2, h2]
  · unfold load_test_page
    show (reduce_dimensions eigh (toFeatureVectorsFixed images model.bbox_size) model).2 = model
    rw [h2]

/-- Witness for C1 at concrete data: the trained example model has a
non-empty basis, and a doPCA call on the concrete batch leaves it intact. -/
theorem c1_frozen_basis_noop_witness :
    matSize exModelT.eigenvector ≠ 0 ∧
    (doPCA exEigh exFV exModelT 1).2 = exModelT := by
  refine ⟨by decide, ?_⟩
  exact (c1_frozen_basis_noop exEigh exEigh exFV [] exModelT 1 (by decide)).1

/-! ### C3: the projection step of doPCA -/

/-- C3: with a frozen basis in place (and the two target dimensions
distinct, as they are in every model this program builds: 50 and 10), doPCA
centers the batch by one scalar mean over the whole batch, multiplies by the
basis, and returns the reconstruction (projection times transposed basis
plus the same scalar mean) when d is the noise dimension, and the bare
projection when d is the final dimension. -/
theorem c3_project_reconstruct_or_return (eigh : Mat → ℕ → ℕ → List ℚ × Mat)
    (fv : Mat) (model : Model) (d : ℕ)
    (hv : matSize model.eigenvector ≠ 0) (hne : model.noise_dim ≠ model.dim) :
    (d = model.noise_dim →
      (doPCA eigh fv model d).1 =
        matAddScalar
          (matMul (matMul (matSubScalar fv (npMean fv)) model.eigenvector)
            (transposeMat model.eigenvector)) (npMean fv)) ∧
    (d = model.dim →
      (doPCA eigh fv model d).1 =
        matMul (matSubScalar fv (npMean fv)) model.eigenvector) := by
  rw [doPCA_nonempty eigh fv model d hv]
  constructor
  · intro hd
    subst hd
    simp [reconWith, projWith]
  · intro hd
    subst hd
    rw [if_neg (fun h => hne h.symm)]
    rfl

/-- Witness for C3 at concrete data: both branches evaluated on the concrete
trained model and batch. -/
theorem c3_project_reconstruct_or_return_witness :
    matSize exModelT.eigenvector ≠ 0 ∧ exModelT.noise_dim ≠ exModelT.dim ∧
    (doPCA exEigh exFV exModelT 2).1 =
      matAddScalar
        (matMul (matMul (matSubScalar exFV (npMean exFV)) exModelT.eigenvector)
          (transposeMat exModelT.eigenvector)) (npMean exFV) ∧
    (doPCA exEigh exFV exModelT 1).1 =
      matMul (matSubScalar exFV (npMean exFV)) exModelT.eigenvector := by
  refine ⟨by decide, by decide, ?_, ?_⟩
  · exact (c3_project_reconstruct_or_return exEigh exFV exModelT 2 (by decide)
      (by decide)).1 rfl
  · exact (c3_project_reconstruct_or_return exEigh exFV exModelT 1 (by decide)
      (by decide)).2 rfl

/-! ### C9: empty corpus fails fast -/

/-- C9: bounding-box computation on an empty image list yields no value (the
Python max raises ValueError), so training on an empty corpus stops before
feature extraction. -/
theorem c9_empty_corpus_fails_fast :
    get_bounding_box_size ([] : List Mat) = none ∧
    (∀ labels eigh, process_training_data eigh [] labels = none) := by
  exact ⟨rfl, fun labels eigh => rfl⟩

/-! ### C10: correct_errors is the identity on labels -/

/-- C10: correct_errors returns exactly the labels it was given and leaves
the model unchanged. -/
theorem c10_correct_errors_identity :
    ∀ (page : Mat) (labels : List String) (bboxes : Mat) (model : Model),
      correct_errors page labels bboxes model = (labels, model) := by
  intro page labels bboxes model
  rfl

/-! ### C7: get_bounding_box_size returns the maxima of the dimensions -/

theorem foldl_max_le_self (l : List ℕ) : ∀ a, a ≤ l.foldl max a := by
  induction l with
  | nil => exact fun a => le_refl a
  | cons x t ih => exact fun a => le_trans (Nat.le_max_left a x) (ih (max a x))

theorem mem_le_foldl_max (l : List ℕ) : ∀ a x, x ∈ l → x ≤ l.foldl max a := by
  induction l with
  | nil => intro a x hx; cases hx
  | cons y t ih =>
    intro a x hx
    rw [List.foldl_cons]
    cases hx with
    | head => exact le_trans (Nat.le_max_right a y) (foldl_max_le_self t (max a y))
    | tail _ h => exact ih (max a y) x h

theorem foldl_max_mem (l : List ℕ) : ∀ a, l.foldl max a = a ∨ l.foldl max a ∈ l := by
  induction l with
  | nil => exact fun a => Or.inl rfl
  | cons y t ih =>
    intro a
    rw [List.foldl_cons]
    rcases ih (max a y) with h | h
    · rw [h]
      rcases Nat.le_total a y with hy | hy
      · rw [Nat.max_eq_right hy]; exact Or.inr (List.mem_cons_self y t)
      · rw [Nat.max_eq_left hy]; exact Or.inl rfl
    · exact Or.inr (List.mem_cons_of_mem y h)

theorem foldl_max_zero_mem (l : List ℕ) (hne : l ≠ []) : l.foldl max 0 ∈ l := by
  rcases foldl_max_mem l 0 with h | h
  · cases l with
    | nil => exact absurd rfl hne
    | cons y t =>
      have hy : y = 0 :=
        Nat.le_zero.mp (h ▸ mem_le_foldl_max (y :: t) 0 y (List.mem_cons_self y t))
      rw [h, ← hy]
      exact List.mem_cons_self y t
  · exact h

/-- C7: on a non-empty image list, get_bounding_box_size returns the pair of
the maximum height and the maximum width: each component is attained by some
image and bounds the corresponding dimension of every image. -/
theorem c7_bounding_box_is_maxima (images : List Mat) (hne : images ≠ []) :
    ∃ H W, get_bounding_box_size images = some (H, W) ∧
      H ∈ images.map List.length ∧
      W ∈ images.map (fun img => (img.headD []).length) ∧
      ∀ img ∈ images, img.length ≤ H ∧ (img.headD []).length ≤ W := by
  cases images with
  | nil => exact absurd rfl hne
  | cons im rest =>
    refine ⟨_, _, rfl, ?_, ?_, ?_⟩
    · exact foldl_max_zero_mem _ (by simp)
    · exact foldl_max_zero_mem _ (by simp)
    · intro img hmem
      exact ⟨mem_le_foldl_max _ 0 _ (List.mem_map_of_mem List.length hmem),
        mem_le_foldl_max _ 0 _ (List.mem_map_of_mem _ hmem)⟩

/-- Witness for C7: a concrete two-image list, one 1-by-2 and one 2-by-1. -/
theorem c7_bounding_box_is_maxima_witness :
    ([[[1, 2]], [[3], [4]]] : List Mat) ≠ [] ∧
    ∃ H W, get_bounding_box_size ([[[1, 2]], [[3], [4]]] : List Mat) = some (H, W) ∧
      H ∈ ([[[1, 2]], [[3], [4]]] : List Mat).map List.length ∧
      W ∈ ([[[1, 2]], [[3], [4]]] : List Mat).map (fun img => (img.headD []).length) ∧
      ∀ img ∈ ([[[1, 2]], [[3], [4]]] : List Mat),
        img.length ≤ H ∧ (img.headD []).length ≤ W :=
  ⟨by decide, c7_bounding_box_is_maxima [[[1, 2]], [[3], [4]]] (by decide)⟩

/-! ### C4: the fit branch of doPCA -/

theorem dotL_map_map {α : Type} (l : List α) (f g : α → ℚ) :
    dotL (l.map f) (l.map g) = (l.map (fun x => f x * g x)).sum := by
  unfold dotL
  rw [List.zipWith_map, zipWith_self]

theorem col_sum_div (X : Mat) (c : ℕ) :
    (X.map (fun r => r.getD c 0)).sum / (X.length : ℚ) = colMeanSpec X c := by
  unfold colMeanSpec
  rw [map_eq_range_map X [] (fun r => r.getD c 0)]

/-- The numpy covariance of a rectangular non-empty batch agrees entrywise
with the specification-side covariance built from rows as observations. -/
theorem npCov_eq_specCov (X : Mat) (p : ℕ) (hX : X ≠ []) (hrect : ∀ r ∈ X, r.length = p) :
    npCov X = specCov X p := by
  have hw : (X.headD []).length = p := by
    cases X with
    | nil => exact absurd rfl hX
    | cons r t => exact hrect r (List.mem_cons_self r t)
  unfold npCov specCov transposeMat
  rw [hw, List.map_map]
  refine List.map_congr_left ?_
  intro i _
  simp only [Function.comp_apply]
  rw [List.map_map]
  refine List.map_congr_left ?_
  intro j _
  simp only [Function.comp_apply, List.map_map, Function.comp, dotL_map_map, col_sum_div]
  rw [map_eq_range_map X []
      (fun r => (r.getD i 0 - colMeanSpec X i) * (r.getD j 0 - colMeanSpec X j))]

/-- C4: with an empty stored basis, doPCA computes the covariance of the
input (rows as observations, columns as features), applies the external
symmetric eigendecomposition to the top d eigenvalue range and reverses the
columns, and persists this basis into the model iff d equals the final
target dimension; no other model field ever changes. -/
theorem c4_fit_persists_iff_final (eigh : Mat → ℕ → ℕ → List ℚ × Mat) (fv : Mat)
    (model : Model) (d : ℕ) (p : ℕ) (hv : matSize model.eigenvector = 0)
    (hfv : fv ≠ []) (hrect : ∀ r ∈ fv, r.length = p) :
    (d = model.dim →
      (doPCA eigh fv model d).2 = { model with eigenvector := fittedBasis eigh fv d }) ∧
    (d ≠ model.dim → (doPCA eigh fv model d).2 = model) ∧
    npCov fv = specCov fv p := by
  refine ⟨?_, ?_, npCov_eq_specCov fv p hfv hrect⟩
  · intro hd
    unfold doPCA fittedBasis
    simp only [hv, if_pos, if_true, eq_self_iff_true, hd]
    split <;> rfl
  · intro hd
    unfold doPCA
    simp only [hv, if_pos, if_true, eq_self_iff_true, if_neg hd]
    split <;> rfl

/-- Witness for C4: the fit branch evaluated on the concrete untrained model
and batch, for the persisting dimension 1 and the transient dimension 2. -/
theorem c4_fit_persists_iff_final_witness :
    matSize exModel0.eigenvector = 0 ∧ exFV ≠ [] ∧ (∀ r ∈ exFV, r.length = 2) ∧
    (doPCA exEigh exFV exModel0 1).2 =
      { exModel0 with eigenvector := fittedBasis exEigh exFV 1 } ∧
    (doPCA exEigh exFV exModel0 2).2 = exModel0 ∧
    npCov exFV = specCov exFV 2 := by
  refine ⟨by decide, by decide, by decide, ?_, ?_, ?_⟩
  · exact (c4_fit_persists_iff_final exEigh exFV exModel0 1 2 (by decide) (by decide)
      (by decide)).1 rfl
  · exact (c4_fit_persists_iff_final exEigh exFV exModel0 2 2 (by decide) (by decide)
      (by decide)).2.1 (by decide)
  · exact (c4_fit_persists_iff_final exEigh exFV exModel0 1 2 (by decide) (by decide)
      (by decide)).2.2

/-! ### C5: at inference, both passes reuse the stored final basis -/

/-- C5: whenever the stored basis is non-empty (every inference-time call),
both passes of reduce_dimensions multiply by that same stored
final-dimension basis: the result is the final projection of the
reconstruction, both built from model.eigenvector; and the training-time
run (empty basis) genuinely differs from the inference-time run on the
identical input, as the concrete instance shows. -/
theorem c5_both_passes_use_stored_basis :
    (∀ (eigh : Mat → ℕ → ℕ → List ℚ × Mat) (fv : Mat) (model : Model),
      matSize model.eigenvector ≠ 0 → model.noise_dim ≠ model.dim →
      reduce_dimensions eigh fv model =
        (projWith model.eigenvector (reconWith model.eigenvector fv), model)) ∧
    (reduce_dimensions exEigh exFV exModel0).1 ≠
      (reduce_dimensions exEigh exFV (reduce_dimensions exEigh exFV exModel0).2).1 := by
  constructor
  · intro eigh fv model hv hne
    rw [reduce_dimensions_nonempty eigh fv model hv,
      if_neg (fun h => hne h.symm)]
  · norm_num [reduce_dimensions, doPCA, npCov, transposeMat, matMul, dotL, matSubScalar,
      matAddScalar, npMean, npSum, matSize, fliplr, exEigh, exModel0, exFV,
      List.range_succ]

/-- Witness for C5: the universal part applied to the concrete trained model
whose stored basis is the one-column matrix. -/
theorem c5_both_passes_use_stored_basis_witness :
    matSize exModelT.eigenvector ≠ 0 ∧ exModelT.noise_dim ≠ exModelT.dim ∧
    reduce_dimensions exEigh exFV exModelT =
      (projWith exModelT.eigenvector (reconWith exModelT.eigenvector exFV), exModelT) :=
  ⟨by decide, by decide,
    c5_both_passes_use_stored_basis.1 exEigh exFV exModelT (by decide) (by decide)⟩

/-! ### C6: feature vectorization pads with 255 and crops silently -/

theorem getD_map_range {β : Type} (n i : ℕ) (hi : i < n) (f : ℕ → β) (d : β) :
    ((List.range n).map f).getD i d = f i := by
  rw [List.getD_eq_getElem?_getD, List.getElem?_eq_getElem (by simpa using hi)]
  simp

theorem getD_map_of_lt {α β : Type} (l : List α) (f : α → β) (i : ℕ) (hi : i < l.length)
    (d : α) (d' : β) : (l.map f).getD i d' = f (l.getD i d) := by
  rw [List.getD_eq_getElem?_getD, List.getElem?_eq_getElem (by simpa using hi)]
  rw [List.getD_eq_getElem?_getD, List.getElem?_eq_getElem hi]
  simp

theorem flatten_length_of_rect (L : Mat) (W : ℕ) (h : ∀ r ∈ L, r.length = W) :
    L.flatten.length = L.length * W := by
  induction L with
  | nil => simp
  | cons r t ih =>
    simp only [List.flatten_cons, List.length_append, List.length_cons]
    rw [h r (List.mem_cons_self r t), ih (fun s hs => h s (List.mem_cons_of_mem r hs))]
    ring

theorem padImage_length (img : Mat) (H W : ℕ) : (padImage img H W).length = H := by
  simp [padImage]

theorem padImage_rows_length (img : Mat) (H W : ℕ) :
    ∀ r ∈ padImage img H W, r.length = W := by
  intro r hr
  simp only [padImage, List.mem_map] at hr
  obtain ⟨i, _, rfl⟩ := hr
  simp

theorem padImage_row (img : Mat) (H W i : ℕ) (hi : i < H) :
    (padImage img H W).getD i [] = (List.range W).map (fun j =>
      if i < min img.length H ∧ j < min (img.headD []).length W
      then (img.getD i []).getD j 0 else 255) := by
  simp only [padImage]
  exact getD_map_range H i hi _ []

theorem padImage_flatten_length (img : Mat) (H W : ℕ) :
    ((padImage img H W).flatten).length = H * W := by
  rw [flatten_length_of_rect (padImage img H W) W (padImage_rows_length img H W),
    padImage_length]

theorem padImage_crop (img : Mat) (H W : ℕ) (hH : H ≤ img.length)
    (hW : ∀ r ∈ img, W ≤ r.length) :
    padImage img H W = (img.take H).map (fun r => r.take W) := by
  cases img with
  | nil =>
    have h0 : H = 0 := Nat.le_zero.mp hH
    subst h0
    rfl
  | cons r t =>
    have hh : min (r :: t).length H = H := min_eq_right hH
    have hwr : W ≤ r.length := hW r (List.mem_cons_self r t)
    have hw : min ((r :: t).headD []).length W = W := min_eq_right hwr
    apply List.ext_getElem
    · simp only [padImage_length, List.length_map, List.length_take]
      omega
    · intro n h1 h2
      rw [List.getElem_map, List.getElem_take]
      have hn : n < H := by simpa [padImage_length] using h1
      have hnl : n < (r :: t).length := lt_of_lt_of_le hn hH
      have hrow : (padImage (r :: t) H W)[n] = (padImage (r :: t) H W).getD n [] := by
        rw [List.getD_eq_getElem?_getD, List.getElem?_eq_getElem h1]
        rfl
      rw [hrow, padImage_row (r :: t) H W n hn, hh, hw]
      apply List.ext_getElem
      · simp only [List.length_map, List.length_range, List.length_take]
        have : W ≤ (r :: t)[n].length := hW _ (List.getElem_mem hnl)
        omega
      · intro j j1 j2
        rw [List.getElem_map, List.getElem_range, List.getElem_take]
        have hj : j < W := by simpa using j1
        rw [if_pos ⟨hn, hj⟩]
        have hgn : (r :: t).getD n [] = (r :: t)[n] := by
          rw [List.getD_eq_getElem?_getD, List.getElem?_eq_getElem hnl]
          rfl
        rw [hgn]
        have hjl : j < (r :: t)[n].length :=
          lt_of_lt_of_le hj (hW _ (List.getElem_mem hnl))
        rw [List.getD_eq_getElem?_getD, List.getElem?_eq_getElem hjl]
        rfl

theorem padImage_exact (img : Mat) (H W : ℕ) (hH : img.length = H)
    (hW : ∀ r ∈ img, r.length = W) : padImage img H W = img := by
  rw [padImage_crop img H W (le_of_eq hH.symm) (fun r hr => le_of_eq (hW r hr).symm)]
  rw [← hH, List.take_length]
  have : ∀ r ∈ img, r.take W = id r := by
    intro r hr
    rw [← hW r hr]
    exact List.take_length r
  rw [List.map_congr_left this, List.map_id]

theorem padImage_uncovered (img : Mat) (H W i j : ℕ) (hi : i < H) (hj : j < W)
    (hcond : min img.length H ≤ i ∨ min (img.headD []).length W ≤ j) :
    ((padImage img H W).getD i []).getD j 0 = 255 := by
  rw [padImage_row img H W i hi, getD_map_range W j hj]
  rw [if_neg]
  intro hc
  rcases hcond with h | h
  · exact absurd hc.1 (not_lt.mpr h)
  · exact absurd hc.2 (not_lt.mpr h)

/-- C6: for every image list and bounding box (H, W), the feature extraction
produces one row per image in input order, each row the row-major flattening
of an H-by-W canvas of 255 with the image copied into the top-left corner
clamped to the canvas; each row has length H*W; an image exactly the box
size passes through unchanged; cells not covered by the image hold 255; and
an image at least as large as the box is silently cropped to the top-left
H-by-W region, with no error. -/
theorem c6_feature_vectorization (images : List Mat) (H W : ℕ) :
    images_to_feature_vectors images (some (H, W)) =
      some (toFeatureVectorsFixed images (H, W)) ∧
    (toFeatureVectorsFixed images (H, W)).length = images.length ∧
    (∀ i, i < images.length →
      (toFeatureVectorsFixed images (H, W)).getD i [] =
        (padImage (images.getD i []) H W).flatten) ∧
    (∀ img : Mat, ((padImage img H W).flatten).length = H * W) ∧
    (∀ img : Mat, img.length = H → (∀ r ∈ img, r.length = W) → padImage img H W = img) ∧
    (∀ (img : Mat) (i j : ℕ), i < H → j < W →
      min img.length H ≤ i ∨ min (img.headD []).length W ≤ j →
      ((padImage img H W).getD i []).getD j 0 = 255) ∧
    (∀ img : Mat, H ≤ img.length → (∀ r ∈ img, W ≤ r.length) →
      padImage img H W = (img.take H).map (fun r => r.take W)) := by
  refine ⟨rfl, by simp [toFeatureVectorsFixed], ?_, ?_, ?_, ?_, ?_⟩
  · intro i hi
    exact getD_map_of_lt images _ i hi [] []
  · intro img
    exact padImage_flatten_length img H W
  · intro img h1 h2
    exact padImage_exact img H W h1 h2
  · intro img i j hi hj hcond
    exact padImage_uncovered img H W i j hi hj hcond
  · intro img h1 h2
    exact padImage_crop img H W h1 h2

/-- Witness for C6: a 2-by-2 image inside a 2-by-2 box is reproduced, a
smaller 1-by-1 image leaves 255 off its corner, and a 3-by-3 image is
cropped to the top-left 2-by-2 region. -/
theorem c6_feature_vectorization_witness :
    padImage [[1, 2], [3, 4]] 2 2 = [[1, 2], [3, 4]] ∧
    ((padImage [[7]] 2 2).getD 1 []).getD 1 0 = 255 ∧
    padImage [[1, 2, 3], [4, 5, 6], [7, 8, 9]] 2 2 =
      (([[1, 2, 3], [4, 5, 6], [7, 8, 9]] : Mat).take 2).map (fun r => r.take 2) := by
  refine ⟨?_, ?_, ?_⟩
  · exact (c6_feature_vectorization [] 2 2).2.2.2.2.1 [[1, 2], [3, 4]] (by decide)
      (by decide)
  · exact (c6_feature_vectorization [] 2 2).2.2.2.2.2.1 [[7]] 1 1 (by decide) (by decide)
      (by decide)
  · exact (c6_feature_vectorization [] 2 2).2.2.2.2.2.2 [[1, 2, 3], [4, 5, 6], [7, 8, 9]]
      (by decide) (by decide)

/-! ### np.argmax agrees with the first-maximum specification -/

theorem getD_q (l : List ℚ) (i : ℕ) (hi : i < l.length) : l.getD i 0 = l[i] := by
  rw [List.getD_eq_getElem?_getD, List.getElem?_eq_getElem hi]
  rfl

theorem mem_getD (t : List ℚ) (x : ℚ) (hx : x ∈ t) :
    ∃ i, i < t.length ∧ t.getD i 0 = x := by
  obtain ⟨i, hi, rfl⟩ := List.mem_iff_getElem.mp hx
  exact ⟨i, hi, getD_q t i hi⟩

theorem leastArgmax_cons_pos (a : ℚ) (t : List ℚ) (h : ∀ x ∈ t, x ≤ a) :
    leastArgmax (a :: t) = 0 := by
  have hall : t.all (fun y => decide (y ≤ a)) = true := by
    simp only [List.all_eq_true, decide_eq_true_eq]
    exact h
  simp [leastArgmax, hall]

theorem leastArgmax_cons_neg (a : ℚ) (t : List ℚ) (h : ∃ x ∈ t, a < x) :
    leastArgmax (a :: t) = leastArgmax t + 1 := by
  obtain ⟨x, hx, hax⟩ := h
  have : ¬(t.all (fun y => decide (y ≤ a)) = true) := by
    simp only [List.all_eq_true, decide_eq_true_eq]
    exact fun hall => absurd (hall x hx) (not_le.mpr hax)
  simp [leastArgmax, this]

theorem argmaxAux_all_le :
    ∀ (t : List ℚ) (i bi : ℕ) (bv : ℚ), (∀ x ∈ t, x ≤ bv) → argmaxAux i bi bv t = bi := by
  intro t
  induction t with
  | nil => intro i bi bv _; rfl
  | cons a s ih =>
    intro i bi bv h
    simp only [argmaxAux]
    rw [if_neg (not_lt.mpr (h a (List.mem_cons_self a s)))]
    exact ih (i + 1) bi bv (fun x hx => h x (List.mem_cons_of_mem a hx))

theorem argmaxAux_exists_lt :
    ∀ (t : List ℚ) (i bi : ℕ) (bv : ℚ), (∃ x ∈ t, bv < x) →
      argmaxAux i bi bv t = i + leastArgmax t := by
  intro t
  induction t with
  | nil =>
    rintro i bi bv ⟨x, hx, _⟩
    cases hx
  | cons a s ih =>
    intro i bi bv hex
    simp only [argmaxAux]
    by_cases hba : bv < a
    · rw [if_pos hba]
      by_cases hall : ∀ x ∈ s, x ≤ a
      · rw [argmaxAux_all_le s (i + 1) i a hall, leastArgmax_cons_pos a s hall]
        omega
      · have hex2 : ∃ x ∈ s, a < x := by
          push_neg at hall
          exact hall
        rw [ih (i + 1) i a hex2, leastArgmax_cons_neg a s hex2]
        omega
    · rw [if_neg hba]
      have hba' : a ≤ bv := not_lt.mp hba
      have hex2 : ∃ x ∈ s, bv < x := by
        obtain ⟨x, hx, hlt⟩ := hex
        rcases List.mem_cons.mp hx with rfl | hxs
        · exact absurd hlt hba
        · exact ⟨x, hxs, hlt⟩
      have hex3 : ∃ x ∈ s, a < x := by
        obtain ⟨x, hx, hlt⟩ := hex2
        exact ⟨x, hx, lt_of_le_of_lt hba' hlt⟩
      rw [ih (i + 1) bi bv hex2, leastArgmax_cons_neg a s hex3]
      omega

theorem argmaxIdx_eq_leastArgmax (l : List ℚ) : argmaxIdx l = leastArgmax l := by
  cases l with
  | nil => rfl
  | cons a t =>
    by_cases hall : ∀ x ∈ t, x ≤ a
    · show argmaxAux 1 0 a t = _
      rw [argmaxAux_all_le t 1 0 a hall, leastArgmax_cons_pos a t hall]
    · push_neg at hall
      show argmaxAux 1 0 a t = _
      rw [argmaxAux_exists_lt t 1 0 a hall, leastArgmax_cons_neg a t hall]
      omega

/-- The first-maximum index is in range, its value bounds every entry, and
every earlier entry is strictly below it: exactly "argmax with ties broken
by the lowest index". -/
theorem leastArgmax_spec (l : List ℚ) (hne : l ≠ []) :
    leastArgmax l < l.length ∧
    (∀ k, k < l.length → l.getD k 0 ≤ l.getD (leastArgmax l) 0) ∧
    (∀ k, k < leastArgmax l → l.getD k 0 < l.getD (leastArgmax l) 0) := by
  induction l with
  | nil => exact absurd rfl hne
  | cons a t ih =>
    by_cases hall : ∀ x ∈ t, x ≤ a
    · rw [leastArgmax_cons_pos a t hall]
      refine ⟨by simp, ?_, ?_⟩
      · intro k hk
        cases k with
        | zero => simp
        | succ m =>
          simp only [List.getD_cons_succ, List.getD_cons_zero]
          have hm : m < t.length := by simpa using hk
          exact hall (t.getD m 0) (getD_q t m hm ▸ List.getElem_mem hm)
      · intro k hk
        exact absurd hk (Nat.not_lt_zero k)
    · push_neg at hall
      have htne : t ≠ [] := by
        rintro rfl
        obtain ⟨x, hx, _⟩ := hall
        cases hx
      obtain ⟨hlen, hmax, hfirst⟩ := ih htne
      rw [leastArgmax_cons_neg a t hall]
      have ha_lt : a < t.getD (leastArgmax t) 0 := by
        obtain ⟨x, hxt, hax⟩ := hall
        obtain ⟨ix, hix, hxeq⟩ := mem_getD t x hxt
        exact lt_of_lt_of_le hax (hxeq ▸ hmax ix hix)
      refine ⟨by simpa using Nat.succ_lt_succ hlen, ?_, ?_⟩
      · intro k hk
        cases k with
        | zero =>
          simp only [List.getD_cons_zero, List.getD_cons_succ]
          exact le_of_lt ha_lt
        | succ m =>
          simp only [List.getD_cons_succ]
          exact hmax m (by simpa using hk)
      · intro k hk
        cases k with
        | zero =>
          simp only [List.getD_cons_zero, List.getD_cons_succ]
          exact ha_lt
        | succ m =>
          simp only [List.getD_cons_succ]
          exact hfirst m (by omega)

/-! ### Dot products: positivity and the Cauchy-Schwarz inequality -/

theorem dotL_nil_left (y : List ℚ) : dotL [] y = 0 := rfl

theorem dotL_cons (a b : ℚ) (xs ys : List ℚ) :
    dotL (a :: xs) (b :: ys) = a * b + dotL xs ys := by
  simp [dotL]

theorem dotL_self_nonneg (x : List ℚ) : 0 ≤ dotL x x := by
  induction x with
  | nil => exact le_refl 0
  | cons a xs ih =>
    rw [dotL_cons]
    exact add_nonneg (mul_self_nonneg a) ih

theorem cs_step (a b S X Y : ℚ) (hX : 0 ≤ X) (hY : 0 ≤ Y) (hS : S ^ 2 ≤ X * Y) :
    (a * b + S) ^ 2 ≤ (a * a + X) * (b * b + Y) := by
  rcases eq_or_lt_of_le hY with hY0 | hYpos
  · have h0 : S ^ 2 = 0 := by nlinarith [sq_nonneg S]
    have hS0 : S = 0 := (pow_eq_zero_iff (two_ne_zero)).mp h0
    subst hS0
    nlinarith [mul_nonneg hX (mul_self_nonneg b), mul_nonneg hX hY, sq_nonneg (a * b)]
  · have key : Y * ((a * a + X) * (b * b + Y) - (a * b + S) ^ 2) =
        (a * Y - b * S) ^ 2 + (b * b + Y) * (X * Y - S ^ 2) := by ring
    nlinarith [key, sq_nonneg (a * Y - b * S),
      mul_nonneg (add_nonneg (mul_self_nonneg b) hY) (sub_nonneg.mpr hS), hYpos]

theorem dotL_sq_le : ∀ (x y : List ℚ), (dotL x y) ^ 2 ≤ dotL x x * dotL y y := by
  intro x
  induction x with
  | nil =>
    intro y
    simp [dotL]
  | cons a xs ih =>
    intro y
    cases y with
    | nil =>
      simp [dotL]
    | cons b ys =>
      simp only [dotL_cons]
      exact cs_step a b (dotL xs ys) (dotL xs xs) (dotL ys ys)
        (dotL_self_nonneg xs) (dotL_self_nonneg ys) (ih ys)

/-! ### The double transpose and the shape of the similarity matrix -/

theorem getD_eq_getElem {α : Type} (l : List α) (d : α) (i : ℕ) (hi : i < l.length) :
    l.getD i d = l[i] := by
  rw [List.getD_eq_getElem?_getD, List.getElem?_eq_getElem hi]
  rfl

theorem headD_eq_getD {α : Type} (l : List α) (d : α) : l.headD d = l.getD 0 d := by
  cases l <;> rfl

theorem transposeMat_length (A : Mat) :
    (transposeMat A).length = (A.headD []).length := by
  simp [transposeMat]

theorem transposeMat_getD (A : Mat) (n : ℕ) (hn : n < (A.headD []).length) :
    (transposeMat A).getD n [] = A.map (fun rr => rr.getD n 0) := by
  simp only [transposeMat]
  exact getD_map_range _ n hn _ []

theorem transpose_transpose (A : Mat) (w : ℕ) (hw : 0 < w)
    (hrect : ∀ r ∈ A, r.length = w) : transposeMat (transposeMat A) = A := by
  cases A with
  | nil => rfl
  | cons r t =>
    have hr : r.length = w := hrect r (List.mem_cons_self r t)
    have hwidth : ((r :: t).headD []).length = w := hr
    have hhead : ((transposeMat (r :: t)).headD []).length = (r :: t).length := by
      rw [headD_eq_getD, transposeMat_getD (r :: t) 0 (by rw [hwidth]; exact hw)]
      simp
    apply List.ext_getElem
    · rw [transposeMat_length, hhead]
    · intro n h1 h2
      have hn : n < (r :: t).length := h2
      have e1 : (transposeMat (transposeMat (r :: t)))[n] =
          (transposeMat (transposeMat (r :: t))).getD n [] :=
        (getD_eq_getElem _ [] n h1).symm
      rw [e1, transposeMat_getD (transposeMat (r :: t)) n (by rw [hhead]; exact hn)]
      have e2 : transposeMat (r :: t) =
          (List.range w).map (fun j => (r :: t).map (fun rr => rr.getD j 0)) := by
        simp only [transposeMat, hwidth]
      rw [e2, List.map_map]
      have e3 : ∀ j : ℕ,
          ((fun rr => rr.getD n 0) ∘ (fun j => (r :: t).map (fun rr => rr.getD j 0))) j =
            (r :: t)[n].getD j 0 := by
        intro j
        simp only [Function.comp_apply]
        rw [getD_map_of_lt (r :: t) (fun rr => rr.getD j 0) n hn []]
        rw [getD_eq_getElem (r :: t) [] n hn]
      rw [List.map_congr_left (fun j _ => e3 j)]
      exact rowRecover _ w (hrect _ (List.getElem_mem hn))

theorem zipWith_map_same {α β γ δ : Type} (h : β → γ → δ) (f : α → β) (g : α → γ)
    (l : List α) : List.zipWith h (l.map f) (l.map g) = l.map (fun x => h (f x) (g x)) := by
  rw [List.zipWith_map, zipWith_self]

theorem modRow_eq (sqrt : ℚ → ℚ) (A : Mat) :
    ((matHadamard A A).map List.sum).map sqrt = A.map (fun r => sqrt (dotL r r)) := by
  unfold matHadamard dotL
  rw [zipWith_self, List.map_map, List.map_map]
  rfl

/-- The closed form of nearest_neighbour: each test row takes the label at
the first index maximizing cosine similarity against the training rows. -/
theorem nearest_neighbour_eq (sqrt : ℚ → ℚ) (R T : Mat) (L : List String) (w : ℕ)
    (hw : 0 < w) (hR : ∀ r ∈ R, r.length = w) :
    nearest_neighbour sqrt R L T =
      T.map (fun trow =>
        L.getD (leastArgmax (R.map (fun rrow => cosSim sqrt trow rrow))) "") := by
  unfold nearest_neighbour
  show ((matDiv (matMul T (transposeMat R))
      (npOuter (((matHadamard T T).map List.sum).map sqrt)
        (((matHadamard R R).map List.sum).map sqrt))).map argmaxIdx).map
      (fun i => L.getD i "") = _
  rw [modRow_eq sqrt T, modRow_eq sqrt R]
  simp only [matMul, matDiv, npOuter, transpose_transpose R w hw hR, List.map_map,
    zipWith_map_same, argmaxIdx_eq_leastArgmax, cosSim, Function.comp]
  refine List.map_congr_left ?_
  intro x _
  simp only [Function.comp_apply, argmaxIdx_eq_leastArgmax]

/-! ### C2: nearest_neighbour is cosine-similarity argmax with lowest-index ties -/

/-- C2: for training rows with parallel labels and test rows of the same
width, all of non-zero norm, nearest_neighbour equals the specification map:
for each test row, the label at the first index maximizing cosine similarity
(dot product over the product of the L2 norms); the output has one label per
test row in order, and for each test row the chosen training index attains
the maximal similarity and strictly exceeds every earlier row's
similarity. -/
theorem c2_nearest_neighbour_cosine_argmax (sqrt : ℚ → ℚ) (R T : Mat) (L : List String)
    (w : ℕ) (hw : 0 < w) (hR : ∀ r ∈ R, r.length = w) (hT : ∀ r ∈ T, r.length = w)
    (hRne : R ≠ []) (hL : L.length = R.length)
    (hnzR : ∀ r ∈ R, dotL r r ≠ 0) (hnzT : ∀ r ∈ T, dotL r r ≠ 0) :
    nearest_neighbour sqrt R L T =
      T.map (fun trow =>
        L.getD (leastArgmax (R.map (fun rrow => cosSim sqrt trow rrow))) "") ∧
    (nearest_neighbour sqrt R L T).length = T.length ∧
    (∀ i, i < T.length → ∃ j, j < R.length ∧
      (nearest_neighbour sqrt R L T).getD i "" = L.getD j "" ∧
      (∀ k, k < R.length →
        cosSim sqrt (T.getD i []) (R.getD k []) ≤
          cosSim sqrt (T.getD i []) (R.getD j [])) ∧
      (∀ k, k < j →
        cosSim sqrt (T.getD i []) (R.getD k []) <
          cosSim sqrt (T.getD i []) (R.getD j []))) := by
  have heq := nearest_neighbour_eq sqrt R T L w hw hR
  refine ⟨heq, by rw [heq]; simp, ?_⟩
  intro i hi
  have hgi : (nearest_neighbour sqrt R L T).getD i "" =
      L.getD (leastArgmax (R.map (fun rrow => cosSim sqrt (T.getD i []) rrow))) "" := by
    rw [heq]
    exact getD_map_of_lt T _ i hi [] ""
  have hrowlen : (R.map (fun rrow => cosSim sqrt (T.getD i []) rrow)).length = R.length := by
    simp
  have hrowne : R.map (fun rrow => cosSim sqrt (T.getD i []) rrow) ≠ [] := by
    intro h
    exact hRne (List.map_eq_nil.mp h)
  obtain ⟨hlt, hmax, hfirst⟩ := leastArgmax_spec _ hrowne
  rw [hrowlen] at hlt
  have hentry : ∀ k, k < R.length →
      (R.map (fun rrow => cosSim sqrt (T.getD i []) rrow)).getD k 0 =
        cosSim sqrt (T.getD i []) (R.getD k []) := by
    intro k hk
    exact getD_map_of_lt R _ k hk [] 0
  refine ⟨leastArgmax (R.map (fun rrow => cosSim sqrt (T.getD i []) rrow)), hlt, hgi,
    ?_, ?_⟩
  · intro k hk
    have h1 := hmax k (by rw [hrowlen]; exact hk)
    rw [hentry k hk, hentry _ hlt] at h1
    exact h1
  · intro k hk
    have h1 := hfirst k hk
    have hkR : k < R.length := lt_trans hk hlt
    rw [hentry k hkR, hentry _ hlt] at h1
    exact h1

/-- Witness for C2 at a concrete instance: two training rows of width 2 with
norms 1 and 4, one test row of norm 4, and the concrete correct square
root. -/
theorem c2_nearest_neighbour_cosine_argmax_witness :
    (0 : ℕ) < 2 ∧ ([[1, 0], [0, 2]] : Mat) ≠ [] ∧
    (∀ r ∈ ([[1, 0], [0, 2]] : Mat), dotL r r ≠ 0) ∧
    (∀ r ∈ ([[2, 0]] : Mat), dotL r r ≠ 0) ∧
    nearest_neighbour csqrt [[1, 0], [0, 2]] ["A", "B"] [[2, 0]] =
      ([[2, 0]] : Mat).map (fun trow =>
        (["A", "B"] : List String).getD
          (leastArgmax (([[1, 0], [0, 2]] : Mat).map
            (fun rrow => cosSim csqrt trow rrow))) "") := by
  refine ⟨by decide, by decide, ?_, ?_, ?_⟩
  · norm_num [dotL, List.forall_mem_cons]
  · norm_num [dotL, List.forall_mem_cons]
  · exact (c2_nearest_neighbour_cosine_argmax csqrt [[1, 0], [0, 2]] [[2, 0]] ["A", "B"]
      2 (by decide) (by decide) (by decide) (by decide) (by decide)
      (by norm_num [dotL, List.forall_mem_cons])
      (by norm_num [dotL, List.forall_mem_cons])).1

/-! ### C8: a test vector identical to a training vector -/

theorem cosSim_self (sqrt : ℚ → ℚ) (v : List ℚ) (h : SqrtOK sqrt (dotL v v))
    (h0 : dotL v v ≠ 0) : cosSim sqrt v v = 1 := by
  unfold cosSim
  rw [h.2, div_self h0]

theorem sqrt_pos_of_ok (sqrt : ℚ → ℚ) (s : ℚ) (h : SqrtOK sqrt s) (h0 : s ≠ 0) :
    0 < sqrt s := by
  rcases eq_or_lt_of_le h.1 with he | hl
  · exfalso
    apply h0
    rw [← h.2, ← he, zero_mul]
  · exact hl

theorem cosSim_le_one (sqrt : ℚ → ℚ) (v u : List ℚ) (hv : SqrtOK sqrt (dotL v v))
    (hu : SqrtOK sqrt (dotL u u)) (hv0 : dotL v v ≠ 0) (hu0 : dotL u u ≠ 0) :
    cosSim sqrt v u ≤ 1 := by
  have hvpos := sqrt_pos_of_ok sqrt (dotL v v) hv hv0
  have hupos := sqrt_pos_of_ok sqrt (dotL u u) hu hu0
  have hD : 0 < sqrt (dotL v v) * sqrt (dotL u u) := mul_pos hvpos hupos
  unfold cosSim
  rw [div_le_one hD]
  nlinarith [dotL_sq_le v u, hD, mul_pos hD hD, hv.2, hu.2]

/-- C8, amended: when a test row is identical to training row j (rows
non-degenerate, square root correct on the row norms), the cosine similarity
of the vector with itself is exactly 1 and no training row's similarity
exceeds 1; the predicted label is that of the lowest-index training row
attaining similarity 1: the chosen index m is at most j, has similarity
exactly 1, every row before m has similarity strictly below 1, and m equals
j - the vector receives its own label labels[j] - exactly when every
training row before j has similarity strictly below 1. -/
theorem c8_self_match (sqrt : ℚ → ℚ) (R T : Mat) (L : List String) (w : ℕ)
    (hw : 0 < w) (hR : ∀ r ∈ R, r.length = w) (hRne : R ≠ [])
    (hnzR : ∀ r ∈ R, dotL r r ≠ 0) (hsq : ∀ r ∈ R, SqrtOK sqrt (dotL r r))
    (i j : ℕ) (hi : i < T.length) (hj : j < R.length)
    (heq : T.getD i [] = R.getD j []) :
    cosSim sqrt (T.getD i []) (R.getD j []) = 1 ∧
    (∀ k, k < R.length → cosSim sqrt (T.getD i []) (R.getD k []) ≤ 1) ∧
    (∃ m, m ≤ j ∧ m < R.length ∧
      (nearest_neighbour sqrt R L T).getD i "" = L.getD m "" ∧
      cosSim sqrt (T.getD i []) (R.getD m []) = 1 ∧
      (∀ k, k < m → cosSim sqrt (T.getD i []) (R.getD k []) < 1) ∧
      (m = j ↔ ∀ k, k < j → cosSim sqrt (T.getD i []) (R.getD k []) < 1)) := by
  have hmem : ∀ k, k < R.length → R.getD k [] ∈ R := by
    intro k hk
    rw [getD_eq_getElem R [] k hk]
    exact List.getElem_mem hk
  have hself : cosSim sqrt (T.getD i []) (R.getD j []) = 1 := by
    rw [heq]
    exact cosSim_self sqrt _ (hsq _ (hmem j hj)) (hnzR _ (hmem j hj))
  have hle : ∀ k, k < R.length → cosSim sqrt (T.getD i []) (R.getD k []) ≤ 1 := by
    intro k hk
    rw [heq]
    exact cosSim_le_one sqrt _ _ (hsq _ (hmem j hj)) (hsq _ (hmem k hk))
      (hnzR _ (hmem j hj)) (hnzR _ (hmem k hk))
  have hgi : (nearest_neighbour sqrt R L T).getD i "" =
      L.getD (leastArgmax (R.map (fun rrow => cosSim sqrt (T.getD i []) rrow))) "" := by
    rw [nearest_neighbour_eq sqrt R T L w hw hR]
    exact getD_map_of_lt T _ i hi [] ""
  have hrowlen : (R.map (fun rrow => cosSim sqrt (T.getD i []) rrow)).length = R.length := by
    simp
  have hrowne : R.map (fun rrow => cosSim sqrt (T.getD i []) rrow) ≠ [] := by
    intro h
    exact hRne (List.map_eq_nil.mp h)
  obtain ⟨hlt, hmax, hfirst⟩ := leastArgmax_spec _ hrowne
  rw [hrowlen] at hlt
  have hentry : ∀ k, k < R.length →
      (R.map (fun rrow => cosSim sqrt (T.getD i []) rrow)).getD k 0 =
        cosSim sqrt (T.getD i []) (R.getD k []) := by
    intro k hk
    exact getD_map_of_lt R _ k hk [] 0
  have hmval : cosSim sqrt (T.getD i [])
      (R.getD (leastArgmax (R.map (fun rrow => cosSim sqrt (T.getD i []) rrow))) []) = 1 := by
    refine le_antisymm (hle _ hlt) ?_
    have h1 := hmax j (by rw [hrowlen]; exact hj)
    rw [hentry j hj, hentry _ hlt, hself] at h1
    exact h1
  have hmj : leastArgmax (R.map (fun rrow => cosSim sqrt (T.getD i []) rrow)) ≤ j := by
    by_contra hgt
    push_neg at hgt
    have h1 := hfirst j hgt
    rw [hentry j hj, hentry _ hlt, hself, hmval] at h1
    exact lt_irrefl 1 h1
  have hmin : ∀ k, k < leastArgmax (R.map (fun rrow => cosSim sqrt (T.getD i []) rrow)) →
      cosSim sqrt (T.getD i []) (R.getD k []) < 1 := by
    intro k hk
    have h1 := hfirst k hk
    rw [hentry k (lt_trans hk hlt), hentry _ hlt, hmval] at h1
    exact h1
  refine ⟨hself, hle, ⟨_, hmj, hlt, hgi, hmval, hmin, ⟨?_, ?_⟩⟩⟩
  · intro hme k hk
    rw [← hme] at hk
    exact hmin k hk
  · intro hstrict
    rcases lt_or_eq_of_le hmj with hlt2 | he
    · exfalso
      have := hstrict _ hlt2
      rw [hmval] at this
      exact lt_irrefl 1 this
    · exact he

/-- C8, counterexample to the claim as stated: the test vector [1, 0] is
identical to training row 1 (labelled "B"), the square root is correct on
the two norms 4 and 1, yet the classifier returns "A": the earlier parallel
row [2, 0] ties at similarity 1 and argmax takes the lowest index. -/
theorem c8_self_match_counterexample :
    ([[1, 0]] : Mat).getD 0 [] = ([[2, 0], [1, 0]] : Mat).getD 1 [] ∧
    (∀ r ∈ ([[2, 0], [1, 0]] : Mat), SqrtOK csqrt (dotL r r) ∧ dotL r r ≠ 0) ∧
    nearest_neighbour csqrt [[2, 0], [1, 0]] ["A", "B"] [[1, 0]] = ["A"] ∧
    (["A", "B"] : List String).getD 1 "" = "B" ∧
    ("A" : String) ≠ "B" := by
  refine ⟨rfl, ?_, ?_, rfl, by decide⟩
  · norm_num [SqrtOK, csqrt, dotL, List.forall_mem_cons]
  · norm_num [nearest_neighbour, matMul, transposeMat, dotL, matHadamard, npOuter,
      matDiv, argmaxIdx, argmaxAux, csqrt, List.range_succ]

/-- Witness for the amended C8 at a concrete instance with j = 1: the test
vector matches the second training row, the earlier row's similarity is
strictly below 1, and the vector receives its own label "B". -/
theorem c8_self_match_witness :
    ([[0, 2]] : Mat).getD 0 [] = ([[1, 0], [0, 2]] : Mat).getD 1 [] ∧
    cosSim csqrt (([[0, 2]] : Mat).getD 0 []) (([[1, 0], [0, 2]] : Mat).getD 1 []) = 1 ∧
    cosSim csqrt (([[0, 2]] : Mat).getD 0 []) (([[1, 0], [0, 2]] : Mat).getD 0 []) < 1 ∧
    (nearest_neighbour csqrt [[1, 0], [0, 2]] ["A", "B"] [[0, 2]]).getD 0 "" = "B" := by
  have hstrict : ∀ k, k < 1 →
      cosSim csqrt (([[0, 2]] : Mat).getD 0 []) (([[1, 0], [0, 2]] : Mat).getD k []) < 1 := by
    intro k hk
    have hk0 : k = 0 := by omega
    subst hk0
    norm_num [cosSim, dotL, csqrt, List.getD_cons_zero]
  have h := c8_self_match csqrt [[1, 0], [0, 2]] [[0, 2]] ["A", "B"] 2 (by decide)
    (by decide) (by decide) (by norm_num [dotL, List.forall_mem_cons])
    (by norm_num [SqrtOK, csqrt, dotL, List.forall_mem_cons]) 0 1 (by decide) (by decide)
    rfl
  obtain ⟨m, hmj, hmlt, hout, hm1, hmin, hiff⟩ := h.2.2
  have hm : m = 1 := hiff.mpr hstrict
  refine ⟨rfl, h.1, hstrict 0 (by decide), ?_⟩
  rw [hout, hm]
  rfl

end SystemPy
